import Mathlib

/-!
Verification of the vbcli message-composition and transport layer.

The Go sources are embedded shallowly: strings are modelled as `List Char`
(each scanner in the source only branches on ASCII bytes, so the byte/char
distinction is immaterial for the scanned delimiters), the HTTP round trips
are modelled as pure functions of the received status code and body, and the
process-wide alias table is a fixed association list.
-/

set_option maxHeartbeats 2000000
set_option maxRecDepth 20000

namespace VBCli

/-- Go `unicode.IsSpace`: the White_Space code points. -/
def goIsSpace (c : Char) : Bool :=
  c == ' ' || c == '\t' || c == '\n' || c.toNat == 11 || c.toNat == 12 || c == '\r' ||
  c.toNat == 0x85 || c.toNat == 0xA0 || c.toNat == 0x1680 ||
  c.toNat == 0x2000 || c.toNat == 0x2001 || c.toNat == 0x2002 || c.toNat == 0x2003 ||
  c.toNat == 0x2004 || c.toNat == 0x2005 || c.toNat == 0x2006 || c.toNat == 0x2007 ||
  c.toNat == 0x2008 || c.toNat == 0x2009 || c.toNat == 0x200A || c.toNat == 0x2028 ||
  c.toNat == 0x2029 || c.toNat == 0x202F || c.toNat == 0x205F || c.toNat == 0x3000

/-- Go `strings.TrimSpace` on a character list. -/
def trimChars (l : List Char) : List Char :=
  ((l.dropWhile goIsSpace).reverse.dropWhile goIsSpace).reverse

/-- Go `strings.TrimSpace` on a string. -/
def goTrimString (s : String) : String :=
  String.mk (trimChars s.data)

/-- Go `unicode.ToLower` (the simple lowercase mapping), exact on every code
point whose lowercase is ASCII: the ASCII letters, plus the only two non-ASCII
code points with an ASCII simple lowercase, U+0130 (LATIN CAPITAL LETTER I
WITH DOT ABOVE, to `i`) and U+212A (KELVIN SIGN, to `k`). Code points whose
Go lowercase is some other non-ASCII character are left unchanged here; such
characters can never make a canonical form equal to one of the ASCII alias
keys, in the model or in Go, so alias-table lookups agree with Go on every
input. -/
def goToLowerChar (c : Char) : Char :=
  if 65 ≤ c.toNat ∧ c.toNat ≤ 90 then Char.ofNat (c.toNat + 32)
  else if c.toNat = 0x130 then 'i'
  else if c.toNat = 0x212A then 'k'
  else c

/-- The `strings.NewReplacer("_", " ", "-", " ")` step of `canonicalAlias`. -/
def foldSepChar (c : Char) : Char :=
  if c = '_' ∨ c = '-' then ' ' else c

/-- Helper for `goFields`: accumulates the current word in reverse. -/
def fieldsAux : List Char → List Char → List (List Char)
  | [], acc => if acc = [] then [] else [acc.reverse]
  | c :: rest, acc =>
    if goIsSpace c then
      if acc = [] then fieldsAux rest [] else acc.reverse :: fieldsAux rest []
    else fieldsAux rest (c :: acc)

/-- Go `strings.Fields`: split around runs of white space. -/
def goFields (l : List Char) : List (List Char) :=
  fieldsAux l []

/-- Go `strings.Join(ws, " ")`. -/
def joinSpace : List (List Char) → List Char
  | [] => []
  | [w] => w
  | w :: ws => w ++ ' ' :: joinSpace ws

/-- `canonicalAlias` from `cmd/template_aliases.go`: trim, lowercase, fold
`_`/`-` to spaces, collapse internal white space. -/
def canonicalAlias (l : List Char) : List Char :=
  joinSpace (goFields (((trimChars l).map goToLowerChar).map foldSepChar))

/-- Decimal digit test (`'0' ≤ c ≤ '9'`). -/
def goIsDigit (c : Char) : Bool :=
  decide (48 ≤ c.toNat) && decide (c.toNat ≤ 57)

/-- Value of a digit string (callers ensure all characters are digits). -/
def digitsVal (l : List Char) : Nat :=
  l.foldl (fun acc d => acc * 10 + (d.toNat - 48)) 0

/-- Digits-and-range part of Go `strconv.Atoi` after the optional sign. -/
def goAtoiDigits (neg : Bool) (digits : List Char) : Option Int :=
  if digits = [] then none
  else if digits.all goIsDigit then
    let n : Int := if neg then -(digitsVal digits : Int) else (digitsVal digits : Int)
    if -(2 ^ 63 : Int) ≤ n ∧ n ≤ 2 ^ 63 - 1 then some n else none
  else none

/-- Go `strconv.Atoi`: optional sign, decimal digits, 64-bit range. -/
def goAtoi (s : List Char) : Option Int :=
  match s with
  | [] => none
  | c :: rest =>
    if c = '-' then goAtoiDigits true rest
    else if c = '+' then goAtoiDigits false rest
    else goAtoiDigits false (c :: rest)

/-- The fixed `templateCharacterAliases` table from `cmd/template_aliases.go`. -/
def templateCharacterAliases : List (List Char × Nat) :=
  [("blank".data, 0), ("space".data, 0),
   ("exclamation".data, 37), ("exclamation mark".data, 37),
   ("at".data, 38), ("pound".data, 39), ("hash".data, 39), ("dollar".data, 40),
   ("left parenthesis".data, 41), ("open parenthesis".data, 41),
   ("right parenthesis".data, 42), ("close parenthesis".data, 42),
   ("hyphen".data, 44), ("dash".data, 44), ("plus".data, 46), ("ampersand".data, 47),
   ("equal".data, 48), ("equals".data, 48), ("semicolon".data, 49), ("colon".data, 50),
   ("single quote".data, 52), ("apostrophe".data, 52), ("double quote".data, 53),
   ("percent".data, 54), ("comma".data, 55), ("period".data, 56), ("dot".data, 56),
   ("slash".data, 59), ("forward slash".data, 59),
   ("question".data, 60), ("question mark".data, 60),
   ("degree".data, 62), ("heart".data, 62), ("red".data, 63), ("orange".data, 64),
   ("yellow".data, 65), ("green".data, 66), ("blue".data, 67), ("violet".data, 68),
   ("purple".data, 68), ("white".data, 69), ("black".data, 70), ("filled".data, 71)]

/-- Go map lookup on the alias table (keys in the literal are distinct). -/
def lookupAlias (k : List Char) : List (List Char × Nat) → Option Nat
  | [] => none
  | (k', v) :: rest => if k = k' then some v else lookupAlias k rest

/-- Lookup in the process-wide alias table. -/
def aliasLookup (k : List Char) : Option Nat :=
  lookupAlias k templateCharacterAliases

/-- `rewriteTemplateToken` from `cmd/template_aliases.go` (its argument is the
already-trimmed interior of a single-brace token). -/
def rewriteTemplateToken (token : List Char) : List Char :=
  if token = [] then ['{', '}']
  else if (goAtoi token).isSome then '{' :: token ++ ['}']
  else
    match aliasLookup (canonicalAlias token) with
    | some code => '{' :: (Nat.repr code).data ++ ['}']
    | none => '{' :: token ++ ['}']

/-- `strings.IndexByte(l, c)` as a splitter: the part before the first `c`
and the part after it. -/
def splitAtChar (c : Char) : List Char → Option (List Char × List Char)
  | [] => none
  | a :: rest =>
    if a = c then some ([], rest)
    else
      match splitAtChar c rest with
      | none => none
      | some (pre, post) => some (a :: pre, post)

/-- `strings.Index(l, "\x7d\x7d")` as a splitter: the part before the first
occurrence of two consecutive closing braces and the part after it. -/
def splitAtBB : List Char → Option (List Char × List Char)
  | [] => none
  | a :: rest =>
    if a = '}' ∧ rest.head? = some '}' then some ([], rest.tail)
    else
      match splitAtBB rest with
      | none => none
      | some (pre, post) => some (a :: pre, post)

/-- The scanning loop of `substituteTemplateCharacterAliases`, with explicit
fuel so that the definition is structural (the loop advances at least one
byte per iteration, so `l.length` fuel always suffices). -/
def substAux : Nat → List Char → List Char
  | 0, l => l
  | _ + 1, [] => []
  | fuel + 1, c :: rest =>
    if c = '{' then
      if rest.head? = some '{' then
        match splitAtBB rest.tail with
        | none => c :: rest
        | some (m, after) => '{' :: '{' :: (m ++ '}' :: '}' :: substAux fuel after)
      else
        match splitAtChar '}' rest with
        | none => '{' :: rest
        | some (inner, after) => rewriteTemplateToken (trimChars inner) ++ substAux fuel after
    else c :: substAux fuel rest

/-- `substituteTemplateCharacterAliases` on character lists. -/
def substChars (l : List Char) : List Char :=
  substAux l.length l

/-- `substituteTemplateCharacterAliases` from `cmd/template_aliases.go`. -/
def substituteTemplateCharacterAliases (s : String) : String :=
  String.mk (substChars s.data)

theorem splitAtChar_eq_append {c : Char} :
    ∀ {l pre post : List Char}, splitAtChar c l = some (pre, post) → l = pre ++ c :: post := by
  intro l
  induction l with
  | nil => intro pre post h; simp [splitAtChar] at h
  | cons a rest ih =>
    intro pre post h
    by_cases ha : a = c
    · simp [splitAtChar, ha] at h
      obtain ⟨h1, h2⟩ := h
      subst h1; subst h2; simp [ha]
    · simp only [splitAtChar, if_neg ha] at h
      cases hr : splitAtChar c rest with
      | none => rw [hr] at h; simp at h
      | some pp =>
        rw [hr] at h
        obtain ⟨p2, q2⟩ := pp
        simp only [Option.some.injEq, Prod.mk.injEq] at h
        obtain ⟨h1, h2⟩ := h
        subst h1; subst h2
        simpa using ih hr

theorem splitAtChar_pre_ne {c : Char} :
    ∀ {l pre post : List Char}, splitAtChar c l = some (pre, post) → ∀ x ∈ pre, x ≠ c := by
  intro l
  induction l with
  | nil => intro pre post h; simp [splitAtChar] at h
  | cons a rest ih =>
    intro pre post h
    by_cases ha : a = c
    · simp [splitAtChar, ha] at h
      obtain ⟨h1, _⟩ := h
      subst h1; simp
    · simp only [splitAtChar, if_neg ha] at h
      cases hr : splitAtChar c rest with
      | none => rw [hr] at h; simp at h
      | some pp =>
        rw [hr] at h
        obtain ⟨p2, q2⟩ := pp
        simp only [Option.some.injEq, Prod.mk.injEq] at h
        obtain ⟨h1, _⟩ := h
        subst h1
        intro x hx
        rcases List.mem_cons.mp hx with h | h
        · subst h; exact ha
        · exact ih hr x h

theorem splitAtChar_of_pre {c : Char} :
    ∀ {pre : List Char}, (∀ x ∈ pre, x ≠ c) → ∀ post,
      splitAtChar c (pre ++ c :: post) = some (pre, post) := by
  intro pre
  induction pre with
  | nil => intro _ post; simp [splitAtChar]
  | cons a pre' ih =>
    intro h post
    have ha : a ≠ c := h a (by simp)
    have h' : ∀ x ∈ pre', x ≠ c := fun x hx => h x (by simp [hx])
    simp only [List.cons_append, splitAtChar, if_neg ha, List.append_eq, ih h' post]

theorem splitAtChar_append {c : Char} {X : List Char} (h : ∀ x ∈ X, x ≠ c) (l : List Char) :
    splitAtChar c (X ++ l) = (splitAtChar c l).map (fun p => (X ++ p.1, p.2)) := by
  induction X with
  | nil =>
    simp only [List.nil_append]
    cases hl : splitAtChar c l with
    | none => simp
    | some p => simp
  | cons a X' ih =>
    have ha : a ≠ c := h a (by simp)
    have h' : ∀ x ∈ X', x ≠ c := fun x hx => h x (by simp [hx])
    simp only [List.cons_append, splitAtChar, if_neg ha, List.append_eq, ih h']
    cases hl : splitAtChar c l with
    | none => simp
    | some p => simp

theorem splitAtChar_none_mem {c : Char} :
    ∀ {l : List Char}, splitAtChar c l = none → ∀ x ∈ l, x ≠ c := by
  intro l
  induction l with
  | nil => intro _ x hx; simp at hx
  | cons a rest ih =>
    intro h x hx
    by_cases ha : a = c
    · simp [splitAtChar, ha] at h
    · simp only [splitAtChar, if_neg ha] at h
      cases hr : splitAtChar c rest with
      | none =>
        rcases List.mem_cons.mp hx with h1 | h1
        · subst h1; exact ha
        · exact ih hr x h1
      | some p => rw [hr] at h; simp at h

theorem splitAtBB_eq_append :
    ∀ {l pre post : List Char}, splitAtBB l = some (pre, post) → l = pre ++ '}' :: '}' :: post := by
  intro l
  induction l with
  | nil => intro pre post h; simp [splitAtBB] at h
  | cons a rest ih =>
    intro pre post h
    by_cases hcond : a = '}' ∧ rest.head? = some '}'
    · simp only [splitAtBB, if_pos hcond, Option.some.injEq, Prod.mk.injEq] at h
      obtain ⟨h1, h2⟩ := h
      subst h1; subst h2
      obtain ⟨ha, hh⟩ := hcond
      subst ha
      cases rest with
      | nil => simp at hh
      | cons b t =>
        simp only [List.head?] at hh
        injection hh with hb
        subst hb
        simp
    · simp only [splitAtBB, if_neg hcond] at h
      cases hr : splitAtBB rest with
      | none => rw [hr] at h; simp at h
      | some pp =>
        rw [hr] at h
        obtain ⟨p2, q2⟩ := pp
        simp only [Option.some.injEq, Prod.mk.injEq] at h
        obtain ⟨h1, h2⟩ := h
        subst h1; subst h2
        simpa using ih hr

theorem splitAtBB_first :
    ∀ {l pre post : List Char}, splitAtBB l = some (pre, post) →
      ∀ x, splitAtBB (pre ++ '}' :: '}' :: x) = some (pre, x) := by
  intro l
  induction l with
  | nil => intro pre post h; simp [splitAtBB] at h
  | cons a rest ih =>
    intro pre post h x
    by_cases hcond : a = '}' ∧ rest.head? = some '}'
    · simp only [splitAtBB, if_pos hcond, Option.some.injEq, Prod.mk.injEq] at h
      obtain ⟨h1, _⟩ := h
      subst h1
      simp [splitAtBB]
    · simp only [splitAtBB, if_neg hcond] at h
      cases hr : splitAtBB rest with
      | none => rw [hr] at h; simp at h
      | some pp =>
        rw [hr] at h
        obtain ⟨p2, q2⟩ := pp
        simp only [Option.some.injEq, Prod.mk.injEq] at h
        obtain ⟨h1, _⟩ := h
        subst h1
        have hrest : rest = p2 ++ '}' :: '}' :: q2 := splitAtBB_eq_append hr
        have hcond2 : ¬(a = '}' ∧ (p2 ++ '}' :: '}' :: x).head? = some '}') := by
          intro ⟨ha, hh⟩
          apply hcond
          refine ⟨ha, ?_⟩
          cases p2 with
          | nil => rw [hrest]; simp
          | cons b t =>
            simp only [List.cons_append, List.head?] at hh
            rw [hrest]
            simp only [List.cons_append, List.head?]
            exact hh
        simp only [List.cons_append, splitAtBB, List.append_eq, if_neg hcond2, ih hr x]

theorem splitAtBB_append {X : List Char} (h : ∀ x ∈ X, x ≠ '}') (l : List Char) :
    splitAtBB (X ++ l) = (splitAtBB l).map (fun p => (X ++ p.1, p.2)) := by
  induction X with
  | nil =>
    simp only [List.nil_append]
    cases hl : splitAtBB l with
    | none => simp
    | some p => simp
  | cons a X' ih =>
    have ha : a ≠ '}' := h a (by simp)
    have h' : ∀ x ∈ X', x ≠ '}' := fun x hx => h x (by simp [hx])
    have hcond : ¬(a = '}' ∧ (X' ++ l).head? = some '}') := fun hc => ha hc.1
    simp only [List.cons_append, splitAtBB, if_neg hcond, List.append_eq, ih h']
    cases hl : splitAtBB l with
    | none => simp
    | some p => simp

theorem splitAtBB_none_of : ∀ {l : List Char}, (∀ x ∈ l, x ≠ '}') → splitAtBB l = none := by
  intro l
  induction l with
  | nil => intro _; rfl
  | cons a rest ih =>
    intro h
    have ha : a ≠ '}' := h a (by simp)
    have h' : ∀ x ∈ rest, x ≠ '}' := fun x hx => h x (by simp [hx])
    have hcond : ¬(a = '}' ∧ rest.head? = some '}') := fun hc => ha hc.1
    simp only [splitAtBB, if_neg hcond, ih h']

theorem splitAtChar_post_length {c : Char} {l pre post : List Char}
    (h : splitAtChar c l = some (pre, post)) : post.length < l.length := by
  have := splitAtChar_eq_append h
  subst this
  simp only [List.length_append, List.length_cons]
  omega

theorem splitAtBB_post_length {l pre post : List Char}
    (h : splitAtBB l = some (pre, post)) : post.length + 2 ≤ l.length := by
  have := splitAtBB_eq_append h
  subst this
  simp only [List.length_append, List.length_cons]
  omega

theorem substAux_congr : ∀ (f₁ : Nat) {f₂ : Nat} {l : List Char},
    l.length ≤ f₁ → l.length ≤ f₂ → substAux f₁ l = substAux f₂ l := by
  intro f₁
  induction f₁ with
  | zero =>
    intro f₂ l h1 _
    have : l = [] := List.length_eq_zero.mp (Nat.le_zero.mp h1)
    subst this
    cases f₂ <;> rfl
  | succ g ih =>
    intro f₂ l h1 h2
    cases l with
    | nil => cases f₂ <;> rfl
    | cons c rest =>
      cases f₂ with
      | zero => simp at h2
      | succ h =>
        have hrg : rest.length ≤ g := by simp at h1; omega
        have hrh : rest.length ≤ h := by simp at h2; omega
        simp only [substAux]
        by_cases hc : c = '{'
        · simp only [if_pos hc]
          by_cases hh : rest.head? = some '{'
          · simp only [if_pos hh]
            cases hbb : splitAtBB rest.tail with
            | none => rfl
            | some p =>
              obtain ⟨m, after⟩ := p
              have hlen : after.length ≤ rest.tail.length := by
                have := splitAtBB_post_length hbb
                omega
              have htail : rest.tail.length ≤ rest.length := by
                cases rest <;> simp
              dsimp only
              rw [ih (Nat.le_trans hlen (Nat.le_trans htail hrg))
                    (Nat.le_trans hlen (Nat.le_trans htail hrh))]
          · simp only [if_neg hh]
            cases hsc : splitAtChar '}' rest with
            | none => rfl
            | some p =>
              obtain ⟨inner, after⟩ := p
              have hlen : after.length < rest.length := splitAtChar_post_length hsc
              dsimp only
              rw [@ih h after (by omega) (by omega)]
        · simp only [if_neg hc]
          rw [ih hrg hrh]

theorem substChars_nil : substChars [] = [] := rfl

theorem substChars_cons {c : Char} (rest : List Char) (h : c ≠ '{') :
    substChars (c :: rest) = c :: substChars rest := by
  simp only [substChars, List.length_cons, substAux, if_neg h]

theorem substChars_bb (rest2 : List Char) :
    substChars ('{' :: '{' :: rest2) =
      match splitAtBB rest2 with
      | none => '{' :: '{' :: rest2
      | some (m, after) => '{' :: '{' :: (m ++ '}' :: '}' :: substChars after) := by
  cases hbb : splitAtBB rest2 with
  | none =>
    simp only [substChars, List.length_cons, substAux, List.head?_cons, List.tail_cons,
      reduceIte, hbb]
  | some p =>
    obtain ⟨m, after⟩ := p
    have hlen : after.length + 2 ≤ rest2.length := splitAtBB_post_length hbb
    simp only [substChars, List.length_cons, substAux, List.head?_cons, List.tail_cons,
      reduceIte, hbb]
    rw [substAux_congr (rest2.length + 1) (by omega) (Nat.le_refl _)]

theorem substChars_single (rest : List Char) (h : rest.head? ≠ some '{') :
    substChars ('{' :: rest) =
      match splitAtChar '}' rest with
      | none => '{' :: rest
      | some (inner, after) => rewriteTemplateToken (trimChars inner) ++ substChars after := by
  cases hsc : splitAtChar '}' rest with
  | none =>
    simp only [substChars, List.length_cons, substAux, reduceIte, if_neg h, hsc]
  | some p =>
    obtain ⟨inner, after⟩ := p
    have hlen : after.length < rest.length := splitAtChar_post_length hsc
    simp only [substChars, List.length_cons, substAux, reduceIte, if_neg h, hsc]
    rw [substAux_congr rest.length (by omega) (Nat.le_refl _)]

theorem dropWhile_head_not {p : Char → Bool} :
    ∀ {l : List Char} {c : Char} {rest : List Char},
      l.dropWhile p = c :: rest → p c = false := by
  intro l
  induction l with
  | nil => intro c rest h; simp [List.dropWhile] at h
  | cons a t ih =>
    intro c rest h
    by_cases hp : p a
    · rw [List.dropWhile_cons, if_pos hp] at h
      exact ih h
    · rw [List.dropWhile_cons, if_neg hp] at h
      injection h with h1 _
      subst h1
      simpa using hp

theorem dropWhile_eq_self_of_head {p : Char → Bool} {l : List Char}
    (h : ∀ c rest, l = c :: rest → p c = false) : l.dropWhile p = l := by
  cases l with
  | nil => rfl
  | cons a t =>
    rw [List.dropWhile_cons, if_neg]
    simp [h a t rfl]

theorem dropWhile_append_self {p : Char → Bool} :
    ∀ (l : List Char), ∃ s, l = s ++ l.dropWhile p := by
  intro l
  induction l with
  | nil => exact ⟨[], rfl⟩
  | cons a t ih =>
    by_cases hp : p a
    · obtain ⟨s, hs⟩ := ih
      refine ⟨a :: s, ?_⟩
      rw [List.dropWhile_cons, if_pos hp]
      simpa using hs
    · refine ⟨[], ?_⟩
      rw [List.dropWhile_cons, if_neg hp]
      rfl

theorem mem_of_mem_dropWhile {p : Char → Bool} {c : Char} :
    ∀ {l : List Char}, c ∈ l.dropWhile p → c ∈ l := by
  intro l
  induction l with
  | nil => intro h; simp [List.dropWhile] at h
  | cons a t ih =>
    intro h
    by_cases hp : p a
    · rw [List.dropWhile_cons, if_pos hp] at h
      exact List.mem_cons_of_mem a (ih h)
    · rw [List.dropWhile_cons, if_neg hp] at h
      exact h

theorem mem_dropWhile_of {p : Char → Bool} {c : Char} (hc : p c = false) :
    ∀ {l : List Char}, c ∈ l → c ∈ l.dropWhile p := by
  intro l
  induction l with
  | nil => intro h; simp at h
  | cons a t ih =>
    intro h
    by_cases hp : p a
    · rw [List.dropWhile_cons, if_pos hp]
      rcases List.mem_cons.mp h with h1 | h1
      · subst h1; rw [hp] at hc; simp at hc
      · exact ih h1
    · rw [List.dropWhile_cons, if_neg hp]
      exact h

theorem mem_of_mem_trimChars {l : List Char} {c : Char} (h : c ∈ trimChars l) : c ∈ l := by
  unfold trimChars at h
  rw [List.mem_reverse] at h
  have h2 := mem_of_mem_dropWhile h
  rw [List.mem_reverse] at h2
  exact mem_of_mem_dropWhile h2

theorem mem_trimChars_of {c : Char} (hc : goIsSpace c = false) {l : List Char}
    (h : c ∈ l) : c ∈ trimChars l := by
  unfold trimChars
  rw [List.mem_reverse]
  apply mem_dropWhile_of hc
  rw [List.mem_reverse]
  exact mem_dropWhile_of hc h

theorem trimChars_idem (l : List Char) : trimChars (trimChars l) = trimChars l := by
  unfold trimChars
  set X := l.dropWhile goIsSpace with hX
  set B := (X.reverse.dropWhile goIsSpace).reverse with hB
  have hBpre : ∃ t, X = B ++ t := by
    obtain ⟨s, hs⟩ := dropWhile_append_self (p := goIsSpace) X.reverse
    refine ⟨s.reverse, ?_⟩
    have := congrArg List.reverse hs
    simpa [hB, List.reverse_append] using this
  have hdropB : B.dropWhile goIsSpace = B := by
    apply dropWhile_eq_self_of_head
    intro c rest hc
    obtain ⟨t, ht⟩ := hBpre
    have hXc : X = c :: (rest ++ t) := by rw [ht, hc]; simp
    exact dropWhile_head_not (hX ▸ hXc)
  rw [hdropB]
  have : B.reverse.dropWhile goIsSpace = B.reverse := by
    rw [hB, List.reverse_reverse]
    apply dropWhile_eq_self_of_head
    intro c rest hc
    exact dropWhile_head_not hc
  rw [this, hB, List.reverse_reverse]

/-- Characterization of the bodies of rewritten single-brace tokens; a second
scan over `'{' :: X ++ ['}']` leaves such a token unchanged. -/
def GoodToken (X : List Char) : Prop :=
  (∀ x ∈ X, x ≠ '}') ∧ trimChars X = X ∧ rewriteTemplateToken X = '{' :: X ++ ['}']

theorem lookupAlias_mem {k : List Char} :
    ∀ {tbl : List (List Char × Nat)} {v : Nat}, lookupAlias k tbl = some v → (k, v) ∈ tbl := by
  intro tbl
  induction tbl with
  | nil => intro v h; simp [lookupAlias] at h
  | cons p rest ih =>
    intro v h
    obtain ⟨k', v'⟩ := p
    by_cases hk : k = k'
    · simp only [lookupAlias, if_pos hk] at h
      injection h with h1
      subst hk; subst h1
      simp
    · simp only [lookupAlias, if_neg hk] at h
      exact List.mem_cons_of_mem _ (ih h)

theorem aliasTable_values_lt : ∀ p ∈ templateCharacterAliases, p.2 < 72 := by decide

theorem natRepr_facts : ∀ n < 72, (Nat.repr n).data ≠ [] ∧
    (∀ x ∈ (Nat.repr n).data, x ≠ '}') ∧ trimChars (Nat.repr n).data = (Nat.repr n).data ∧
    goAtoi (Nat.repr n).data = some (n : Int) := by decide

theorem rewriteTemplateToken_good {t : List Char} (ht : ∀ x ∈ t, x ≠ '}') :
    ∃ X, rewriteTemplateToken (trimChars t) = '{' :: X ++ ['}'] ∧ GoodToken X := by
  have htrim : ∀ x ∈ trimChars t, x ≠ '}' := fun x hx => ht x (mem_of_mem_trimChars hx)
  by_cases h0 : trimChars t = []
  · refine ⟨[], ?_, ?_, ?_, ?_⟩
    · rw [h0]; rfl
    · simp
    · rfl
    · rfl
  · by_cases hint : (goAtoi (trimChars t)).isSome
    · refine ⟨trimChars t, ?_, htrim, trimChars_idem t, ?_⟩
      · simp only [rewriteTemplateToken, if_neg h0, if_pos hint]
      · simp only [rewriteTemplateToken, if_neg h0, if_pos hint]
    · cases hlook : aliasLookup (canonicalAlias (trimChars t)) with
      | some code =>
        have hmem := lookupAlias_mem hlook
        have hlt : code < 72 := aliasTable_values_lt _ hmem
        obtain ⟨hne, hnb, htr, hatoi⟩ := natRepr_facts code hlt
        refine ⟨(Nat.repr code).data, ?_, hnb, htr, ?_⟩
        · simp only [rewriteTemplateToken, if_neg h0, if_neg hint, hlook]
        · simp only [rewriteTemplateToken, if_neg hne, hatoi, Option.isSome_some, if_pos]
      | none =>
        refine ⟨trimChars t, ?_, htrim, trimChars_idem t, ?_⟩
        · simp only [rewriteTemplateToken, if_neg h0, if_neg hint, hlook]
        · have : aliasLookup (canonicalAlias (trimChars t)) = none := by
            rw [← hlook]
          simp only [rewriteTemplateToken, if_neg h0, if_neg hint, this]

theorem splitAtBB_cons_not {a : Char} (ha : a ≠ '}') (l : List Char) :
    splitAtBB (a :: l) = (splitAtBB l).map (fun p => (a :: p.1, p.2)) := by
  have hcond : ¬(a = '}' ∧ l.head? = some '}') := fun hc => ha hc.1
  simp only [splitAtBB, if_neg hcond]
  cases h : splitAtBB l with
  | none => simp
  | some p => simp

theorem splitAtBB_cons_rb {l : List Char} (hh : l.head? ≠ some '}') :
    splitAtBB ('}' :: l) = (splitAtBB l).map (fun p => ('}' :: p.1, p.2)) := by
  have hcond : ¬(('}' : Char) = '}' ∧ l.head? = some '}') := fun hc => hh hc.2
  rw [splitAtBB, if_neg hcond]
  cases h : splitAtBB l with
  | none => rfl
  | some p => rfl

theorem splitAtBB_rb_rb (l : List Char) : splitAtBB ('}' :: '}' :: l) = some ([], l) := by
  simp [splitAtBB]

/-- The shapes a scanner output can take, viewed from any copy boundary: the
scanner acts as the identity on every list of this shape. -/
inductive Out : List Char → Prop where
  | nil : Out []
  | lit : ∀ (c : Char) (l : List Char), c ≠ '{' → Out l → Out (c :: l)
  | span : ∀ (m l : List Char),
      (∀ x, splitAtBB (m ++ '}' :: '}' :: x) = some (m, x)) → Out l →
      Out ('{' :: '{' :: (m ++ '}' :: '}' :: l))
  | tailBB : ∀ (r : List Char), splitAtBB r = none → Out ('{' :: '{' :: r)
  | tailCh : ∀ (r : List Char), r.head? ≠ some '{' → splitAtChar '}' r = none →
      Out ('{' :: r)
  | token : ∀ (X l : List Char), GoodToken X → Out l → Out ('{' :: (X ++ '}' :: l))

theorem out_cons_inv {c : Char} {l : List Char} (h : Out (c :: l)) (hc : c ≠ '{') :
    Out l := by
  cases h with
  | lit _ _ _ h => exact h
  | span m l' hm hl => exact absurd rfl hc
  | tailBB r hr => exact absurd rfl hc
  | tailCh r hh hsc => exact absurd rfl hc
  | token X l' hX hl => exact absurd rfl hc

theorem out_splitBB {l : List Char} (h : Out l) :
    ∀ {p q : List Char}, splitAtBB l = some (p, q) → Out q := by
  induction h with
  | nil => intro p q hpq; simp [splitAtBB] at hpq
  | lit c l' hc hl ih =>
    intro p q hpq
    by_cases hcond : c = '}' ∧ l'.head? = some '}'
    · simp only [splitAtBB, if_pos hcond, Option.some.injEq, Prod.mk.injEq] at hpq
      obtain ⟨hc2, hh⟩ := hcond
      cases l' with
      | nil => simp at hh
      | cons b t =>
        simp only [List.head?_cons, Option.some.injEq] at hh
        subst hh
        obtain ⟨_, h2⟩ := hpq
        subst h2
        exact out_cons_inv hl (by decide)
    · simp only [splitAtBB, if_neg hcond] at hpq
      cases hr : splitAtBB l' with
      | none => rw [hr] at hpq; simp at hpq
      | some pp =>
        rw [hr] at hpq
        obtain ⟨p', q'⟩ := pp
        simp only [Option.some.injEq, Prod.mk.injEq] at hpq
        obtain ⟨_, h2⟩ := hpq
        subst h2
        exact ih hr
  | span m l' hm hl ih =>
    intro p q hpq
    rw [splitAtBB_cons_not (by decide), splitAtBB_cons_not (by decide), hm l'] at hpq
    simp only [Option.map, Option.some.injEq, Prod.mk.injEq] at hpq
    obtain ⟨_, h2⟩ := hpq
    subst h2
    exact hl
  | tailBB r hr =>
    intro p q hpq
    rw [splitAtBB_cons_not (by decide), splitAtBB_cons_not (by decide), hr] at hpq
    simp only [Option.map] at hpq
    exact absurd hpq (by simp)
  | tailCh r hh hsc =>
    intro p q hpq
    have hnone : splitAtBB ('{' :: r) = none := by
      apply splitAtBB_none_of
      intro x hx
      rcases List.mem_cons.mp hx with h1 | h1
      · subst h1; decide
      · exact splitAtChar_none_mem hsc x h1
    rw [hnone] at hpq
    exact absurd hpq (by simp)
  | token X l' hX hl ih =>
    intro p q hpq
    obtain ⟨hXnb, _, _⟩ := hX
    rw [splitAtBB_cons_not (by decide), splitAtBB_append hXnb] at hpq
    by_cases hh : l'.head? = some '}'
    · cases l' with
      | nil => simp at hh
      | cons b l₂ =>
        simp only [List.head?_cons, Option.some.injEq] at hh
        subst hh
        rw [splitAtBB_rb_rb] at hpq
        simp only [Option.map, Option.some.injEq, Prod.mk.injEq] at hpq
        obtain ⟨_, h2⟩ := hpq
        subst h2
        exact out_cons_inv hl (by decide)
    · rw [splitAtBB_cons_rb hh] at hpq
      cases hr : splitAtBB l' with
      | none =>
        rw [hr] at hpq
        simp only [Option.map] at hpq
        exact absurd hpq (by simp)
      | some pp =>
        rw [hr] at hpq
        obtain ⟨p', q'⟩ := pp
        simp only [Option.map, Option.some.injEq, Prod.mk.injEq] at hpq
        obtain ⟨_, h2⟩ := hpq
        subst h2
        exact ih hr

theorem substChars_of_out : ∀ (n : Nat) (l : List Char), l.length ≤ n → Out l →
    substChars l = l := by
  intro n
  induction n with
  | zero =>
    intro l hlen _
    have : l = [] := List.length_eq_zero.mp (Nat.le_zero.mp hlen)
    subst this
    rfl
  | succ n ih =>
    intro l hlen hout
    cases hout with
    | nil => rfl
    | lit c l' hc hl =>
      rw [substChars_cons l' hc, ih l' (by simp at hlen; omega) hl]
    | span m l' hm hl =>
      rw [substChars_bb, hm l']
      have hl'len : l'.length ≤ n := by
        simp only [List.length_cons, List.length_append] at hlen
        omega
      dsimp only
      rw [ih l' hl'len hl]
    | tailBB r hr =>
      rw [substChars_bb, hr]
    | tailCh r hh hsc =>
      rw [substChars_single r hh, hsc]
    | token X l' hX hl =>
      obtain ⟨hXnb, hXtrim, hXrw⟩ := hX
      have hl'len : l'.length ≤ n := by
        simp only [List.length_cons, List.length_append] at hlen
        omega
      cases X with
      | nil =>
        rw [show ('{' :: ([] ++ '}' :: l' : List Char)) = '{' :: '}' :: l' by simp]
        rw [substChars_single ('}' :: l') (by simp)]
        rw [show splitAtChar '}' ('}' :: l') = some ([], l') by simp [splitAtChar]]
        dsimp only
        rw [show rewriteTemplateToken (trimChars []) = ['{', '}'] from rfl]
        rw [ih l' hl'len hl]
        rfl
      | cons c X' =>
        by_cases hc : c = '{'
        · subst hc
          have hX'nb : ∀ x ∈ X', x ≠ '}' := fun x hx => hXnb x (by simp [hx])
          rw [show ('{' :: (('{' :: X') ++ '}' :: l' : List Char)) =
                '{' :: '{' :: (X' ++ '}' :: l') by simp]
          rw [substChars_bb, splitAtBB_append hX'nb]
          by_cases hh : l'.head? = some '}'
          · cases l' with
            | nil => simp at hh
            | cons b l₂ =>
              simp only [List.head?_cons, Option.some.injEq] at hh
              subst hh
              rw [splitAtBB_rb_rb]
              have hOut₂ : Out l₂ := out_cons_inv hl (by decide)
              have hlen₂ : l₂.length ≤ n := by
                simp only [List.length_cons] at hl'len
                omega
              simp only [Option.map]
              rw [ih l₂ hlen₂ hOut₂]
              simp
          · rw [splitAtBB_cons_rb hh]
            cases hr : splitAtBB l' with
            | none => simp only [Option.map]
            | some pp =>
              obtain ⟨p', q'⟩ := pp
              have hOutq : Out q' := out_splitBB hl hr
              have hlenq : q'.length ≤ n := by
                have := splitAtBB_post_length hr
                omega
              simp only [Option.map]
              rw [ih q' hlenq hOutq]
              have hl'eq : l' = p' ++ '}' :: '}' :: q' := splitAtBB_eq_append hr
              rw [hl'eq]
              simp
        · rw [substChars_single ((c :: X') ++ '}' :: l') (by simpa using hc)]
          rw [splitAtChar_of_pre hXnb l']
          dsimp only
          rw [hXtrim, hXrw, ih l' hl'len hl]
          simp

theorem out_substChars : ∀ (n : Nat) (l : List Char), l.length ≤ n →
    Out (substChars l) := by
  intro n
  induction n with
  | zero =>
    intro l hlen
    have : l = [] := List.length_eq_zero.mp (Nat.le_zero.mp hlen)
    subst this
    exact Out.nil
  | succ n ih =>
    intro l hlen
    cases l with
    | nil => exact Out.nil
    | cons c rest =>
      by_cases hc : c = '{'
      · subst hc
        by_cases hh : rest.head? = some '{'
        · cases rest with
          | nil => simp at hh
          | cons b rest2 =>
            simp only [List.head?_cons, Option.some.injEq] at hh
            subst hh
            rw [substChars_bb]
            cases hbb : splitAtBB rest2 with
            | none => exact Out.tailBB rest2 hbb
            | some pp =>
              obtain ⟨m, after⟩ := pp
              have hafter : after.length ≤ n := by
                have := splitAtBB_post_length hbb
                simp only [List.length_cons] at hlen
                omega
              dsimp only
              exact Out.span m (substChars after) (splitAtBB_first hbb) (ih after hafter)
        · rw [substChars_single rest hh]
          cases hsc : splitAtChar '}' rest with
          | none => exact Out.tailCh rest hh hsc
          | some pp =>
            obtain ⟨inner, after⟩ := pp
            have hafter : after.length ≤ n := by
              have := splitAtChar_post_length hsc
              simp only [List.length_cons] at hlen
              omega
            obtain ⟨X, heq, hgood⟩ :=
              rewriteTemplateToken_good (splitAtChar_pre_ne hsc)
            dsimp only
            rw [heq]
            have : ('{' :: X ++ ['}']) ++ substChars after =
                '{' :: (X ++ '}' :: substChars after) := by simp
            rw [this]
            exact Out.token X (substChars after) hgood (ih after hafter)
      · rw [substChars_cons rest hc]
        exact Out.lit c (substChars rest) hc
          (ih rest (by simp only [List.length_cons] at hlen; omega))

theorem substChars_idem (l : List Char) : substChars (substChars l) = substChars l :=
  substChars_of_out (substChars l).length (substChars l) (Nat.le_refl _)
    (out_substChars l.length l (Nat.le_refl _))

theorem joinSpace_mem {c : Char} :
    ∀ {ws : List (List Char)}, c ∈ joinSpace ws → c = ' ' ∨ ∃ w ∈ ws, c ∈ w := by
  intro ws
  induction ws with
  | nil => intro h; simp [joinSpace] at h
  | cons w ws' ih =>
    intro h
    cases ws' with
    | nil => exact Or.inr ⟨w, by simp, by simpa [joinSpace] using h⟩
    | cons w2 ws2 =>
      rw [show joinSpace (w :: w2 :: ws2) = w ++ ' ' :: joinSpace (w2 :: ws2) from rfl] at h
      rcases List.mem_append.mp h with h1 | h1
      · exact Or.inr ⟨w, by simp, h1⟩
      · rcases List.mem_cons.mp h1 with h2 | h2
        · exact Or.inl h2
        · rcases ih h2 with h3 | ⟨w', hw', hc⟩
          · exact Or.inl h3
          · exact Or.inr ⟨w', List.mem_cons_of_mem _ hw', hc⟩

theorem mem_joinSpace_of {c : Char} {w : List Char} :
    ∀ {ws : List (List Char)}, w ∈ ws → c ∈ w → c ∈ joinSpace ws := by
  intro ws
  induction ws with
  | nil => intro h _; simp at h
  | cons w1 ws' ih =>
    intro hw hc
    cases ws' with
    | nil =>
      rcases List.mem_cons.mp hw with h1 | h1
      · subst h1; simpa [joinSpace] using hc
      · simp at h1
    | cons w2 ws2 =>
      rw [show joinSpace (w1 :: w2 :: ws2) = w1 ++ ' ' :: joinSpace (w2 :: ws2) from rfl]
      rcases List.mem_cons.mp hw with h1 | h1
      · subst h1; exact List.mem_append.mpr (Or.inl hc)
      · exact List.mem_append.mpr (Or.inr (List.mem_cons_of_mem _ (ih h1 hc)))

theorem fieldsAux_mem {c : Char} :
    ∀ (l acc w : List Char), w ∈ fieldsAux l acc → c ∈ w → c ∈ l ∨ c ∈ acc := by
  intro l
  induction l with
  | nil =>
    intro acc w hw hc
    by_cases ha : acc = []
    · subst ha; simp [fieldsAux] at hw
    · simp only [fieldsAux, if_neg ha, List.mem_singleton] at hw
      subst hw
      right
      simpa using hc
  | cons a rest ih =>
    intro acc w hw hc
    by_cases hs : goIsSpace a
    · simp only [fieldsAux, if_pos hs] at hw
      by_cases ha : acc = []
      · rw [if_pos ha] at hw
        rcases ih [] w hw hc with h1 | h1
        · exact Or.inl (List.mem_cons_of_mem _ h1)
        · simp at h1
      · rw [if_neg ha] at hw
        rcases List.mem_cons.mp hw with h1 | h1
        · subst h1; right; simpa using hc
        · rcases ih [] w h1 hc with h2 | h2
          · exact Or.inl (List.mem_cons_of_mem _ h2)
          · simp at h2
    · simp only [fieldsAux, if_neg hs] at hw
      rcases ih (a :: acc) w hw hc with h1 | h1
      · exact Or.inl (List.mem_cons_of_mem _ h1)
      · rcases List.mem_cons.mp h1 with h2 | h2
        · subst h2; left; simp
        · right; exact h2

theorem fieldsAux_complete {c : Char} (hc : goIsSpace c = false) :
    ∀ (l acc : List Char), c ∈ l ∨ c ∈ acc → ∃ w ∈ fieldsAux l acc, c ∈ w := by
  intro l
  induction l with
  | nil =>
    intro acc h
    rcases h with h | h
    · simp at h
    · have ha : acc ≠ [] := by rintro rfl; simp at h
      refine ⟨acc.reverse, ?_, by simpa using h⟩
      simp [fieldsAux, ha]
  | cons a rest ih =>
    intro acc h
    by_cases hs : goIsSpace a
    · have hca : c ≠ a := by rintro rfl; rw [hs] at hc; simp at hc
      by_cases ha : acc = []
      · subst ha
        have h' : c ∈ rest := by
          rcases h with h | h
          · rcases List.mem_cons.mp h with h1 | h1
            · exact absurd h1 hca
            · exact h1
          · simp at h
        obtain ⟨w, hw, hcw⟩ := ih [] (Or.inl h')
        refine ⟨w, ?_, hcw⟩
        simp only [fieldsAux, if_pos hs, if_pos rfl]
        exact hw
      · rcases h with h | h
        · rcases List.mem_cons.mp h with h1 | h1
          · exact absurd h1 hca
          · obtain ⟨w, hw, hcw⟩ := ih [] (Or.inl h1)
            refine ⟨w, ?_, hcw⟩
            simp only [fieldsAux, if_pos hs, if_neg ha]
            exact List.mem_cons_of_mem _ hw
        · refine ⟨acc.reverse, ?_, by simpa using h⟩
          simp only [fieldsAux, if_pos hs, if_neg ha]
          simp
    · have h' : c ∈ rest ∨ c ∈ a :: acc := by
        rcases h with h | h
        · rcases List.mem_cons.mp h with h1 | h1
          · subst h1; exact Or.inr (by simp)
          · exact Or.inl h1
        · exact Or.inr (List.mem_cons_of_mem _ h)
      obtain ⟨w, hw, hcw⟩ := ih (a :: acc) h'
      refine ⟨w, ?_, hcw⟩
      simp only [fieldsAux, if_neg hs]
      exact hw

theorem mem_canonicalAlias {t : List Char} {c : Char} (h : c ∈ canonicalAlias t) :
    c = ' ' ∨ ∃ d ∈ t, foldSepChar (goToLowerChar d) = c := by
  unfold canonicalAlias at h
  rcases joinSpace_mem h with h1 | ⟨w, hw, hcw⟩
  · exact Or.inl h1
  · rcases fieldsAux_mem _ _ _ hw hcw with h2 | h2
    · rw [List.mem_map] at h2
      obtain ⟨d1, hd1, hfold⟩ := h2
      rw [List.mem_map] at hd1
      obtain ⟨d, hd, hlow⟩ := hd1
      exact Or.inr ⟨d, mem_of_mem_trimChars hd, by rw [hlow, hfold]⟩
    · simp at h2

theorem canonicalAlias_mem_of {t : List Char} {c : Char} (hsp : goIsSpace c = false)
    (hlow : goToLowerChar c = c) (hfold : foldSepChar c = c) (h : c ∈ t) :
    c ∈ canonicalAlias t := by
  unfold canonicalAlias
  have h1 : c ∈ trimChars t := mem_trimChars_of hsp h
  have h2 : c ∈ (trimChars t).map goToLowerChar := by
    rw [← hlow]
    exact List.mem_map_of_mem _ h1
  have h3 : c ∈ ((trimChars t).map goToLowerChar).map foldSepChar := by
    rw [← hfold]
    exact List.mem_map_of_mem _ h2
  obtain ⟨w, hw, hcw⟩ := fieldsAux_complete hsp _ [] (Or.inl h3)
  exact mem_joinSpace_of hw hcw

theorem canonicalAlias_trimChars (l : List Char) :
    canonicalAlias (trimChars l) = canonicalAlias l := by
  unfold canonicalAlias
  rw [trimChars_idem]

theorem goAtoiDigits_chars {neg : Bool} {digits : List Char} {v : Int}
    (h : goAtoiDigits neg digits = some v) : ∀ x ∈ digits, goIsDigit x = true := by
  by_cases h0 : digits = []
  · subst h0; simp [goAtoiDigits] at h
  · simp only [goAtoiDigits, if_neg h0] at h
    by_cases hall : digits.all goIsDigit
    · exact fun x hx => List.all_eq_true.mp hall x hx
    · rw [if_neg hall] at h; simp at h

theorem goAtoi_chars {s : List Char} {v : Int} (h : goAtoi s = some v) :
    ∀ x ∈ s, x = '-' ∨ x = '+' ∨ goIsDigit x = true := by
  cases s with
  | nil => simp [goAtoi] at h
  | cons c rest =>
    intro x hx
    by_cases hm : c = '-'
    · rw [goAtoi, if_pos hm] at h
      rcases List.mem_cons.mp hx with h1 | h1
      · subst h1; exact Or.inl hm
      · exact Or.inr (Or.inr (goAtoiDigits_chars h x h1))
    · by_cases hp : c = '+'
      · rw [goAtoi, if_neg hm, if_pos hp] at h
        rcases List.mem_cons.mp hx with h1 | h1
        · subst h1; exact Or.inr (Or.inl hp)
        · exact Or.inr (Or.inr (goAtoiDigits_chars h x h1))
      · rw [goAtoi, if_neg hm, if_neg hp] at h
        exact Or.inr (Or.inr (goAtoiDigits_chars h x hx))

theorem aliasTable_keys_facts : ∀ p ∈ templateCharacterAliases,
    p.1 ≠ [] ∧ '{' ∉ p.1 ∧ '}' ∉ p.1 ∧ ∃ c ∈ p.1, 97 ≤ c.toNat ∧ c.toNat ≤ 122 := by
  decide

theorem aliasTable_keys_canonical :
    ∀ p ∈ templateCharacterAliases, canonicalAlias p.1 = p.1 := by
  decide

/-- Resolving a single-brace token whose canonical form is a key of the alias
table: the scanner emits the key's character code, for the key itself and for
every spelling with the same canonical form. -/
theorem substChars_alias_token (k : List Char) (v : Nat) (t : List Char)
    (hk : aliasLookup k = some v) (ht : canonicalAlias t = k) :
    substChars ('{' :: t ++ ['}']) = '{' :: (Nat.repr v).data ++ ['}'] := by
  have hmem := lookupAlias_mem hk
  obtain ⟨hkne, hkL, hkR, cα, hcα, hα1, hα2⟩ := aliasTable_keys_facts _ hmem
  have htL : '{' ∉ t := by
    intro hin
    exact hkL (ht ▸ canonicalAlias_mem_of (by decide) (by decide) (by decide) hin)
  have htR : '}' ∉ t := by
    intro hin
    exact hkR (ht ▸ canonicalAlias_mem_of (by decide) (by decide) (by decide) hin)
  have hcanon : canonicalAlias (trimChars t) = k := by
    rw [canonicalAlias_trimChars, ht]
  have hatoi : goAtoi (trimChars t) = none := by
    cases hA : goAtoi (trimChars t) with
    | none => rfl
    | some w =>
      exfalso
      have hck : cα ∈ canonicalAlias (trimChars t) := hcanon ▸ hcα
      rcases mem_canonicalAlias hck with h1 | ⟨d, hd, hfl⟩
      · rw [h1] at hα1
        exact absurd hα1 (by decide)
      · rcases goAtoi_chars hA d hd with h2 | h2 | h2
        · subst h2
          rw [show foldSepChar (goToLowerChar '-') = ' ' from rfl] at hfl
          rw [← hfl] at hα1
          exact absurd hα1 (by decide)
        · subst h2
          rw [show foldSepChar (goToLowerChar '+') = '+' from rfl] at hfl
          rw [← hfl] at hα1
          exact absurd hα1 (by decide)
        · have hdval : 48 ≤ d.toNat ∧ d.toNat ≤ 57 := by
            simpa [goIsDigit] using h2
          have hdlow : goToLowerChar d = d := by
            unfold goToLowerChar
            rw [if_neg (by omega), if_neg (by omega), if_neg (by omega)]
          have hdfold : foldSepChar d = d := by
            unfold foldSepChar
            rw [if_neg]
            rintro (h | h) <;> (subst h; exact absurd hdval (by decide))
          rw [hdlow, hdfold] at hfl
          subst hfl
          omega
  have htne : trimChars t ≠ [] := by
    intro h0
    apply hkne
    rw [← ht, ← canonicalAlias_trimChars, h0]
    rfl
  cases t with
  | nil => exact absurd (by rw [← ht]; rfl) hkne
  | cons d t' =>
    have hd : d ≠ '{' := fun h => htL (h ▸ List.mem_cons_self d t')
    have hnb : ∀ x ∈ d :: t', x ≠ '}' := fun x hx h => htR (h ▸ hx)
    rw [show ('{' :: (d :: t') ++ ['}'] : List Char) = '{' :: ((d :: t') ++ '}' :: []) by simp]
    rw [substChars_single ((d :: t') ++ '}' :: []) (by simpa using hd)]
    rw [splitAtChar_of_pre hnb []]
    dsimp only
    rw [rewriteTemplateToken, if_neg htne]
    rw [show (goAtoi (trimChars (d :: t'))).isSome = false by rw [hatoi]; rfl]
    simp only [Bool.false_eq_true, if_false]
    rw [hcanon, hk]
    rw [substChars_nil]
    simp

/-- Unknown-token passthrough: a single-brace token whose trimmed interior
neither parses as an integer nor canonicalizes to an alias key is re-emitted
with its trimmed interior between the braces. -/
theorem substChars_unknown_token (inner rest : List Char)
    (h1 : ∀ x ∈ inner, x ≠ '}') (h2 : inner.head? ≠ some '{')
    (h3 : goAtoi (trimChars inner) = none)
    (h4 : aliasLookup (canonicalAlias (trimChars inner)) = none) :
    substChars ('{' :: inner ++ '}' :: rest) =
      ('{' :: trimChars inner ++ ['}']) ++ substChars rest := by
  have hd : (inner ++ '}' :: rest).head? ≠ some '{' := by
    cases inner with
    | nil => simp
    | cons a t =>
      have ha : a ≠ '{' := by simpa using h2
      simpa using ha
  rw [show ('{' :: inner ++ '}' :: rest : List Char) = '{' :: (inner ++ '}' :: rest) by simp]
  rw [substChars_single (inner ++ '}' :: rest) hd]
  rw [splitAtChar_of_pre h1 rest]
  dsimp only
  congr 1
  by_cases h0 : trimChars inner = []
  · rw [h0]; rfl
  · rw [rewriteTemplateToken, if_neg h0,
      show (goAtoi (trimChars inner)).isSome = false by rw [h3]; rfl]
    simp only [Bool.false_eq_true, if_false]
    rw [h4]

/-- C1 (counterexample): resolving `"\x7b zz \x7d"` yields `"\x7bzz\x7d"`, not
`"\x7b zz \x7d"`: the unknown token's interior white space is not preserved, so the
claim that the original interior is emitted untrimmed is false. -/
theorem C1_counterexample :
    substituteTemplateCharacterAliases "\x7b zz \x7d" = "\x7bzz\x7d" ∧
    substituteTemplateCharacterAliases "\x7b zz \x7d" ≠ "\x7b zz \x7d" := by
  constructor
  · decide
  · decide

/-- C1 (amended): for every single-brace token whose trimmed interior does not
parse as an integer and whose canonicalized form is not an alias key, the
resolver emits the token with its whitespace-trimmed interior text between the
braces (and continues scanning after the closing brace). -/
theorem C1_unknown_token_trimmed (inner rest : List Char)
    (h1 : ∀ x ∈ inner, x ≠ '}') (h2 : inner.head? ≠ some '{')
    (h3 : goAtoi (trimChars inner) = none)
    (h4 : aliasLookup (canonicalAlias (trimChars inner)) = none) :
    substChars ('{' :: inner ++ '}' :: rest) =
      ('{' :: trimChars inner ++ ['}']) ++ substChars rest :=
  substChars_unknown_token inner rest h1 h2 h3 h4

/-- C1 (witness): the amended statement at the concrete token `"\x7b zz \x7d"`. -/
theorem C1_witness :
    substChars ('{' :: " zz ".data ++ '}' :: []) =
      ('{' :: trimChars " zz ".data ++ ['}']) ++ substChars [] :=
  C1_unknown_token_trimmed " zz ".data [] (by decide) (by decide) (by decide) (by decide)

/-- C3 (confirmed): for every key `k` of the alias table with value `v`,
resolving `"\x7b" ++ k ++ "\x7d"` yields `"\x7b" ++ v ++ "\x7d"`, and resolving any
spelling `t` with the same canonical form (mixed case, extra internal white
space, `_`/`-` for spaces) yields the same result. -/
theorem C3_alias_resolution (k : List Char) (v : Nat) (t : List Char)
    (hk : aliasLookup k = some v) (ht : canonicalAlias t = k) :
    substChars ('{' :: k ++ ['}']) = '{' :: (Nat.repr v).data ++ ['}'] ∧
    substChars ('{' :: t ++ ['}']) = '{' :: (Nat.repr v).data ++ ['}'] := by
  constructor
  · exact substChars_alias_token k v k hk (aliasTable_keys_canonical _ (lookupAlias_mem hk))
  · exact substChars_alias_token k v t hk ht

/-- C3 (witness): the key `"green" ↦ 66` and its spelling `" GReen_ "`. -/
theorem C3_witness :
    substChars ('{' :: "green".data ++ ['}']) = '{' :: (Nat.repr 66).data ++ ['}'] ∧
    substChars ('{' :: " GReen_ ".data ++ ['}']) = '{' :: (Nat.repr 66).data ++ ['}'] :=
  C3_alias_resolution "green".data 66 " GReen_ ".data (by decide) (by decide)

/-- C10 (confirmed): the alias token resolver is idempotent: applying
`substituteTemplateCharacterAliases` to its own output returns that output
unchanged, for every input string. -/
theorem C10_resolver_idempotent (s : String) :
    substituteTemplateCharacterAliases (substituteTemplateCharacterAliases s) =
      substituteTemplateCharacterAliases s :=
  congrArg String.mk (substChars_idem s.data)

/-- Minimal JSON value model for the request/response bodies of the transport
client (numbers are integers: every decode target in the source is `int`). -/
inductive Json where
  | null : Json
  | bool (b : Bool) : Json
  | num (n : Int) : Json
  | str (s : String) : Json
  | arr (elems : List Json) : Json
  | obj (fields : List (String × Json)) : Json

/-- Per-character case folding for `encoding/json` field-name matching, which
compares names under `bytes.EqualFold` (Unicode simple folding). The only
fold orbits that contain an ASCII character are the ASCII case pairs,
`K`/`k`/U+212A (KELVIN SIGN) and `S`/`s`/U+017F (LONG S), so folding those to
lowercase ASCII and leaving other characters unchanged decides fold-equality
against any ASCII field name exactly as Go does. -/
def foldNameChar (c : Char) : Char :=
  if 65 ≤ c.toNat ∧ c.toNat ≤ 90 then Char.ofNat (c.toNat + 32)
  else if c.toNat = 0x212A then 'k'
  else if c.toNat = 0x17F then 's'
  else c

/-- `encoding/json` field-name equality (`bytes.EqualFold`), for ASCII
struct-field names. -/
def fieldNameFoldEq (a b : String) : Bool :=
  a.data.map foldNameChar == b.data.map foldNameChar

/-- Field lookup with Go `encoding/json` semantics: a JSON key is assigned to
the struct field when the names match under case folding, and on several
matching keys the last occurrence wins. -/
def lookupField (k : String) : List (String × Json) → Option Json
  | [] => none
  | (k', v) :: rest =>
    match lookupField k rest with
    | some v' => some v'
    | none => if fieldNameFoldEq k' k then some v else none

/-- Unmarshal a JSON value into `int` (`null` is a no-op, leaving the zero
value `0`). -/
def decodeIntJ : Json → Option Int
  | .null => some 0
  | .num n => some n
  | _ => none

/-- Unmarshal a JSON array's elements into `[]int`. -/
def decodeIntList : List Json → Option (List Int)
  | [] => some []
  | e :: rest =>
    match decodeIntJ e, decodeIntList rest with
    | some n, some ns => some (n :: ns)
    | _, _ => none

/-- Unmarshal a JSON value into `[]int` (`null` leaves the zero value). -/
def decodeRow : Json → Option (List Int)
  | .null => some []
  | .arr elems => decodeIntList elems
  | _ => none

/-- Unmarshal a JSON array's elements into `[][]int`. -/
def decodeRowList : List Json → Option (List (List Int))
  | [] => some []
  | e :: rest =>
    match decodeRow e, decodeRowList rest with
    | some r, some rs => some (r :: rs)
    | _, _ => none

/-- Unmarshal a JSON value into `[][]int` (`null` leaves the zero value). -/
def decodeMatrix : Json → Option (List (List Int))
  | .null => some []
  | .arr rows => decodeRowList rows
  | _ => none

/-- Unmarshal a JSON value into `struct \x7b Characters [][]int \x7d`: an
object's "characters" field must decode as a matrix, a missing field or a
null body leaves the zero value, and any other shape is an unmarshal error. -/
def decodeWrapped : Json → Option (List (List Int))
  | .null => some []
  | .obj fields =>
    match lookupField "characters" fields with
    | none => some []
    | some v => decodeMatrix v
  | _ => none

/-- The response-normalization step of `Client.FormatMessage`: use the wrapped
shape if it decodes to a non-empty matrix, otherwise the bare shape if it
decodes to a non-empty matrix, otherwise fail. -/
def decodeComposeBody (j : Json) : Except String (List (List Int)) :=
  match decodeWrapped j with
  | some cs =>
    if cs ≠ [] then .ok cs
    else
      match decodeMatrix j with
      | some cs2 => if cs2 ≠ [] then .ok cs2 else .error "vbml API returned no characters"
      | none => .error "vbml API returned no characters"
  | none =>
    match decodeMatrix j with
    | some cs2 => if cs2 ≠ [] then .ok cs2 else .error "vbml API returned no characters"
    | none => .error "vbml API returned no characters"

/-- JSON encoding of a character matrix. -/
def jsonOfMatrix (m : List (List Int)) : Json :=
  .arr (m.map fun row => .arr (row.map Json.num))

/-- Result of a board-write call, as a function of the HTTP response received
from the service. -/
inductive PostResult where
  | success : PostResult
  | protocolError (status : Nat) (body : String) : PostResult
deriving DecidableEq

/-- The status/body classification of `Client.postMessage`: 409 is success,
then the non-2xx range is a protocol error carrying the status and the trimmed
response body, and everything else is success. -/
def postMessage (status : Nat) (body : String) : PostResult :=
  if status = 409 then .success
  else if status < 200 ∨ 300 ≤ status then .protocolError status (goTrimString body)
  else .success

/-- Request body posted by `Client.SendCharacters`. -/
def sendCharactersRequest (characters : List (List Int)) : Json :=
  .obj [("characters", jsonOfMatrix characters)]

/-- `Client.SendCharacters`: posts the characters payload and classifies the
HTTP response with `postMessage`. -/
def SendCharacters (characters : List (List Int)) (respStatus : Nat) (respBody : String) :
    PostResult :=
  postMessage respStatus respBody

/-- Request body posted by `Client.SendText`. -/
def sendTextRequest (text : String) : Json :=
  .obj [("text", .str text)]

/-- `Client.SendText`: posts the text payload and classifies the HTTP response
with `postMessage`. -/
def SendText (text : String) (respStatus : Nat) (respBody : String) : PostResult :=
  postMessage respStatus respBody

/-- C4 (confirmed): `SendCharacters` succeeds exactly on a 2xx or 409 response
status; any other status produces an error carrying the status and the
response body. -/
theorem C4_send_characters_status (characters : List (List Int)) (status : Nat)
    (body : String) :
    (SendCharacters characters status body = .success ↔
      (200 ≤ status ∧ status < 300) ∨ status = 409) ∧
    (¬((200 ≤ status ∧ status < 300) ∨ status = 409) →
      SendCharacters characters status body = .protocolError status (goTrimString body)) := by
  unfold SendCharacters postMessage
  by_cases h409 : status = 409
  · subst h409
    simp
  · rw [if_neg h409]
    by_cases hr : status < 200 ∨ 300 ≤ status
    · rw [if_pos hr]
      refine ⟨⟨fun h => by simp at h, fun h => absurd h (by omega)⟩, fun _ => rfl⟩
    · rw [if_neg hr]
      exact ⟨⟨fun _ => Or.inl (by omega), fun _ => rfl⟩,
        fun h => absurd (Or.inl (by omega)) h⟩

/-- C4 (witness): status 409 is success and status 404 is a protocol error
carrying status and body. -/
theorem C4_witness :
    SendCharacters [[1, 2]] 409 "conflict" = PostResult.success ∧
    SendCharacters [[1, 2]] 404 " nope " = PostResult.protocolError 404 (goTrimString " nope ") :=
  ⟨(C4_send_characters_status [[1, 2]] 409 "conflict").1.mpr (by decide),
   (C4_send_characters_status [[1, 2]] 404 " nope ").2 (by decide)⟩

/-- Style carried by the single component of a compose request. -/
structure ComponentStyle where
  align : String
  justify : String
deriving DecidableEq

/-- One component of a compose request. -/
structure Component where
  template : String
  style : ComponentStyle
deriving DecidableEq

/-- Fixed-dimension top-level style of a compose request. -/
structure TopStyle where
  height : Nat
  width : Nat
deriving DecidableEq

/-- The outbound shape `Client.FormatMessage` sends to the compose service. -/
structure RenderRequest where
  components : List Component
  style : Option TopStyle
deriving DecidableEq

/-- The compose request built by `Client.FormatMessage`: one component with
the template text and its align/justify style, plus a fixed height-3, width-15
top-level style exactly when the model is "note". -/
def formatMessageRequest (message model align justify : String) : RenderRequest :=
  { components := [{ template := message, style := { align := align, justify := justify } }],
    style := if model = "note" then some { height := 3, width := 15 } else none }

/-- C5 (confirmed): the "note" model adds a top-level style with height 3 and
width 15, the "flagship" model omits the top-level style entirely, and for
every model the single component carries the text, align and justify. -/
theorem C5_format_request_shape (text align justify : String) :
    (formatMessageRequest text "note" align justify).style = some ⟨3, 15⟩ ∧
    (formatMessageRequest text "flagship" align justify).style = none ∧
    ∀ model, (formatMessageRequest text model align justify).components =
      [⟨text, ⟨align, justify⟩⟩] := by
  refine ⟨?_, ?_, fun _ => rfl⟩
  · simp [formatMessageRequest]
  · simp [formatMessageRequest]

/-- JSON white space (`encoding/json` skips space, tab, newline, return). -/
def goJsonWs (c : Char) : Bool :=
  c == ' ' || c == '\t' || c == '\n' || c == '\r'

/-- Skip JSON white space. -/
def skipJsonWs (l : List Char) : List Char :=
  l.dropWhile goJsonWs

/-- Consume a run of decimal digits, accumulating their value. -/
def parseDigitsNat : List Char → Nat → Nat × List Char
  | [], acc => (acc, [])
  | c :: rest, acc =>
    if goIsDigit c then parseDigitsNat rest (acc * 10 + (c.toNat - 48))
    else (acc, c :: rest)

/-- Whether the next character continues a JSON number past its integer part
(a fraction or exponent makes the value unassignable to `int`). -/
def numContinues : List Char → Bool
  | [] => false
  | c :: _ => c == '.' || c == 'e' || c == 'E'

/-- Unsigned JSON integer literal: `0`, or a nonzero digit followed by
digits (a leading zero followed by a digit is a JSON syntax error). -/
def parseJsonNat : List Char → Option (Nat × List Char)
  | [] => none
  | c :: rest =>
    if c = '0' then
      match rest with
      | d :: _ => if goIsDigit d then none else some (0, rest)
      | [] => some (0, [])
    else if goIsDigit c then some (parseDigitsNat rest (c.toNat - 48))
    else none

/-- JSON integer literal as decoded into Go `int`: optional minus, no
fraction/exponent continuation, 64-bit range. -/
def parseJsonInt (s : List Char) : Option (Int × List Char) :=
  match s with
  | '-' :: rest =>
    match parseJsonNat rest with
    | some (n, r) =>
      if numContinues r then none
      else if (n : Int) ≤ 2 ^ 63 then some (-(n : Int), r) else none
    | none => none
  | _ =>
    match parseJsonNat s with
    | some (n, r) =>
      if numContinues r then none
      else if (n : Int) ≤ 2 ^ 63 - 1 then some ((n : Int), r) else none
    | none => none

/-- Consume a literal `null`. -/
def parseNullTok : List Char → Option (List Char)
  | 'n' :: 'u' :: 'l' :: 'l' :: rest => some rest
  | _ => none

/-- One element of a row: an integer literal, or `null`, which Go unmarshals
into an `int` as a no-op leaving the zero value `0`. -/
def parseIntOrNull (s : List Char) : Option (Int × List Char) :=
  match parseNullTok s with
  | some rest => some (0, rest)
  | none => parseJsonInt s

/-- Comma-separated row elements up to the closing bracket of a row (the fuel
is at least the input length, and each element consumes at least one byte). -/
def parseIntItems : Nat → List Char → Option (List Int × List Char)
  | 0, _ => none
  | fuel + 1, s =>
    match parseIntOrNull s with
    | none => none
    | some (n, r) =>
      match skipJsonWs r with
      | ']' :: r2 => some ([n], r2)
      | ',' :: r2 =>
        match parseIntItems fuel (skipJsonWs r2) with
        | some (ns, r3) => some (n :: ns, r3)
        | none => none
      | _ => none

/-- One row of the matrix: `null` or a bracketed list of integers. -/
def parseRow (s : List Char) : Option (List Int × List Char) :=
  match parseNullTok s with
  | some rest => some ([], rest)
  | none =>
    match s with
    | '[' :: r =>
      match skipJsonWs r with
      | ']' :: r2 => some ([], r2)
      | r1 => parseIntItems (r1.length + 1) r1
    | _ => none

/-- Comma-separated rows up to the closing bracket of the matrix. -/
def parseRowItems : Nat → List Char → Option (List (List Int) × List Char)
  | 0, _ => none
  | fuel + 1, s =>
    match parseRow s with
    | none => none
    | some (row, r) =>
      match skipJsonWs r with
      | ']' :: r2 => some ([row], r2)
      | ',' :: r2 =>
        match parseRowItems fuel (skipJsonWs r2) with
        | some (rows, r3) => some (row :: rows, r3)
        | none => none
      | _ => none

/-- `json.Unmarshal(s, &characters)` for `var characters [][]int`: parse the
value (`null` accepted for the matrix, for a row, and for an element, each
leaving the corresponding zero value) and require only white space to
remain. -/
def parseCharactersJSON (s : List Char) : Option (List (List Int)) :=
  let s1 := skipJsonWs s
  let parsed : Option (List (List Int) × List Char) :=
    match parseNullTok s1 with
    | some rest => some ([], rest)
    | none =>
      match s1 with
      | '[' :: r =>
        match skipJsonWs r with
        | ']' :: r2 => some ([], r2)
        | r1 => parseRowItems (r1.length + 1) r1
      | _ => none
  match parsed with
  | some (m, r) => if skipJsonWs r = [] then some m else none
  | none => none

/-- `looksLikeRawCharactersJSON` from `cmd/root.go`: trimmed length at least
10, bracket-delimited, and parseable as `[][]int`. -/
def looksLikeRawCharactersJSON (input : String) : Bool :=
  let trimmed := trimChars input.data
  if trimmed.length < 10 then false
  else if !(['['].isPrefixOf trimmed) || !([']'].isSuffixOf trimmed) then false
  else (parseCharactersJSON trimmed).isSome

/-- C7 (confirmed): the sniffer returns true exactly when the trimmed input
has length at least 10, starts with `[`, ends with `]` and parses as a JSON
array of arrays of integers; it is a total function, and on the three
spec examples it returns true, false and false respectively. -/
theorem C7_sniffer :
    (∀ s : String, looksLikeRawCharactersJSON s = true ↔
      (10 ≤ (trimChars s.data).length ∧ ['['].isPrefixOf (trimChars s.data) = true ∧
        [']'].isSuffixOf (trimChars s.data) = true ∧
        (parseCharactersJSON (trimChars s.data)).isSome = true)) ∧
    looksLikeRawCharactersJSON " [[1,2],[3,4]] " = true ∧
    looksLikeRawCharactersJSON "hello [1,2]" = false ∧
    looksLikeRawCharactersJSON "\x7b\"characters\":[[1]]\x7d" = false := by
  refine ⟨?_, by decide, by decide, by decide⟩
  intro s
  unfold looksLikeRawCharactersJSON
  by_cases hlen : (trimChars s.data).length < 10
  · rw [if_pos hlen]
    constructor
    · intro h; simp at h
    · intro ⟨h1, _⟩; omega
  · rw [if_neg hlen]
    by_cases hpre : ['['].isPrefixOf (trimChars s.data) = true
    · by_cases hsuf : [']'].isSuffixOf (trimChars s.data) = true
      · rw [if_neg (by rw [hpre, hsuf]; simp)]
        constructor
        · intro h
          exact ⟨by omega, hpre, hsuf, h⟩
        · intro ⟨_, _, _, h4⟩
          exact h4
      · rw [if_pos (by rw [Bool.eq_false_iff.mpr hsuf]; simp)]
        constructor
        · intro h; simp at h
        · intro ⟨_, _, h3, _⟩
          exact absurd h3 hsuf
    · rw [if_pos (by rw [Bool.eq_false_iff.mpr hpre]; simp)]
      constructor
      · intro h; simp at h
      · intro ⟨_, h2, _, _⟩
        exact absurd h2 hpre

/-- Hexadecimal digit value of a byte. -/
def hexValB (b : Nat) : Option Nat :=
  if 48 ≤ b ∧ b ≤ 57 then some (b - 48)
  else if 97 ≤ b ∧ b ≤ 102 then some (b - 87)
  else if 65 ≤ b ∧ b ≤ 70 then some (b - 55)
  else none

/-- Octal digit value of a byte. -/
def octValB (b : Nat) : Option Nat :=
  if 48 ≤ b ∧ b ≤ 55 then some (b - 48) else none

/-- `utf8.ValidRune`: in range and not a surrogate half. -/
def validRune (v : Nat) : Bool :=
  decide (v ≤ 0x10FFFF) && !(decide (0xD800 ≤ v) && decide (v ≤ 0xDFFF))

/-- `utf8.AppendRune`: the UTF-8 encoding of a valid code point. -/
def utf8Encode (v : Nat) : List Nat :=
  if v < 0x80 then [v]
  else if v < 0x800 then [0xC0 + v / 64, 0x80 + v % 64]
  else if v < 0x10000 then [0xE0 + v / 4096, 0x80 + v / 64 % 64, 0x80 + v % 64]
  else [0xF0 + v / 262144, 0x80 + v / 4096 % 64, 0x80 + v / 64 % 64, 0x80 + v % 64]

/-- `utf8.DecodeRune` on a byte list: the decoded code point and the number
of bytes consumed; a malformed, overlong, surrogate or out-of-range sequence
yields the replacement character U+FFFD with size 1. -/
def utf8DecodeOne : List Nat → Nat × Nat
  | [] => (0xFFFD, 0)
  | b :: rest =>
    if b < 0x80 then (b, 1)
    else if 0xC2 ≤ b ∧ b ≤ 0xDF then
      match rest with
      | c1 :: _ =>
        if 0x80 ≤ c1 ∧ c1 ≤ 0xBF then ((b - 0xC0) * 64 + (c1 - 0x80), 2)
        else (0xFFFD, 1)
      | [] => (0xFFFD, 1)
    else if 0xE0 ≤ b ∧ b ≤ 0xEF then
      match rest with
      | c1 :: c2 :: _ =>
        if (if b = 0xE0 then 0xA0 else 0x80) ≤ c1 ∧
            c1 ≤ (if b = 0xED then 0x9F else 0xBF) ∧
            0x80 ≤ c2 ∧ c2 ≤ 0xBF then
          ((b - 0xE0) * 4096 + (c1 - 0x80) * 64 + (c2 - 0x80), 3)
        else (0xFFFD, 1)
      | _ => (0xFFFD, 1)
    else if 0xF0 ≤ b ∧ b ≤ 0xF4 then
      match rest with
      | c1 :: c2 :: c3 :: _ =>
        if (if b = 0xF0 then 0x90 else 0x80) ≤ c1 ∧
            c1 ≤ (if b = 0xF4 then 0x8F else 0xBF) ∧
            0x80 ≤ c2 ∧ c2 ≤ 0xBF ∧ 0x80 ≤ c3 ∧ c3 ≤ 0xBF then
          ((b - 0xF0) * 262144 + (c1 - 0x80) * 4096 + (c2 - 0x80) * 64 + (c3 - 0x80), 4)
        else (0xFFFD, 1)
      | _ => (0xFFFD, 1)
    else (0xFFFD, 1)

/-- One escape sequence after a backslash, per Go `strconv.UnquoteChar` with
quote `"`, at byte level: the bytes appended to the output and the number of
input bytes consumed, or `none` for a dangling backslash, an unknown escape
letter, or an out-of-range value. `\x` and octal escapes append one raw
byte; `\u` and `\U` escapes require a valid (in-range, non-surrogate) code
point and append its UTF-8 encoding. -/
def unquoteEscapeB : List Nat → Option (List Nat × Nat)
  | [] => none
  | e :: r =>
    if e = 97 then some ([7], 1)
    else if e = 98 then some ([8], 1)
    else if e = 102 then some ([12], 1)
    else if e = 110 then some ([10], 1)
    else if e = 114 then some ([13], 1)
    else if e = 116 then some ([9], 1)
    else if e = 118 then some ([11], 1)
    else if e = 92 then some ([92], 1)
    else if e = 34 then some ([34], 1)
    else if e = 120 then
      match r with
      | h1 :: h2 :: _ =>
        match hexValB h1, hexValB h2 with
        | some a, some b => some ([16 * a + b], 3)
        | _, _ => none
      | _ => none
    else if e = 117 then
      match r with
      | h1 :: h2 :: h3 :: h4 :: _ =>
        match hexValB h1, hexValB h2, hexValB h3, hexValB h4 with
        | some a, some b, some c, some d =>
          let v := 4096 * a + 256 * b + 16 * c + d
          if validRune v then some (utf8Encode v, 5) else none
        | _, _, _, _ => none
      | _ => none
    else if e = 85 then
      match r with
      | h1 :: h2 :: h3 :: h4 :: h5 :: h6 :: h7 :: h8 :: _ =>
        match hexValB h1, hexValB h2, hexValB h3, hexValB h4 with
        | some a, some b, some c, some d =>
          match hexValB h5, hexValB h6, hexValB h7, hexValB h8 with
          | some a2, some b2, some c2, some d2 =>
            let v := 65536 * (4096 * a + 256 * b + 16 * c + d) +
              (4096 * a2 + 256 * b2 + 16 * c2 + d2)
            if validRune v then some (utf8Encode v, 9) else none
          | _, _, _, _ => none
        | _, _, _, _ => none
      | _ => none
    else
      match octValB e, r with
      | some a, o2 :: o3 :: _ =>
        match octValB o2, octValB o3 with
        | some b, some c =>
          let v := 64 * a + 8 * b + c
          if v ≤ 255 then some ([v], 3) else none
        | _, _ => none
      | _, _ => none

/-- The per-byte loop of Go `strconv.Unquote` on a double-quoted literal
whose interior is the given byte list, with explicit fuel (each step
consumes at least one byte, so the input length always suffices): fails on
an unescaped quote, an unescaped newline, or a bad escape; bytes at or above
0x80 are decoded as one UTF-8 rune and re-encoded (so malformed sequences
become U+FFFD), as `utf8.DecodeRuneInString` plus `utf8.AppendRune` do. -/
def unquoteBytesAux : Nat → List Nat → Option (List Nat)
  | _, [] => some []
  | 0, _ :: _ => none
  | fuel + 1, b :: rest =>
    if b = 34 then none
    else if b = 10 then none
    else if b = 92 then
      match unquoteEscapeB rest with
      | none => none
      | some (out, k) => (unquoteBytesAux fuel (rest.drop k)).map (out ++ ·)
    else if b < 128 then (unquoteBytesAux fuel rest).map (b :: ·)
    else
      match utf8DecodeOne (b :: rest) with
      | (r, size) => (unquoteBytesAux fuel (rest.drop (size - 1))).map (utf8Encode r ++ ·)

/-- Unescape the interior of a double-quoted Go string literal (bytes). -/
def unquoteBytes (l : List Nat) : Option (List Nat) :=
  unquoteBytesAux l.length l

/-- `decodeEscapes` from `cmd/root.go`, on the byte sequence of the input
string: `strconv.Unquote` of the input wrapped in double quotes; on any
error the input is returned unchanged. -/
def decodeEscapesBytes (l : List Nat) : List Nat :=
  match unquoteBytes l with
  | some out => out
  | none => l

/-- Byte representation of an ASCII string (used for concrete inputs). -/
def asciiBytes (s : String) : List Nat :=
  s.data.map Char.toNat

theorem unquoteBytesAux_congr : ∀ (f₁ : Nat) {f₂ : Nat} {l : List Nat},
    l.length ≤ f₁ → l.length ≤ f₂ → unquoteBytesAux f₁ l = unquoteBytesAux f₂ l := by
  intro f₁
  induction f₁ with
  | zero =>
    intro f₂ l h1 _
    have : l = [] := List.length_eq_zero.mp (Nat.le_zero.mp h1)
    subst this
    cases f₂ <;> rfl
  | succ g ih =>
    intro f₂ l h1 h2
    cases l with
    | nil => cases f₂ <;> rfl
    | cons b rest =>
      cases f₂ with
      | zero => simp at h2
      | succ f =>
        have hrg : rest.length ≤ g := by simp at h1; omega
        have hrf : rest.length ≤ f := by simp at h2; omega
        simp only [unquoteBytesAux]
        by_cases hq : b = 34
        · simp only [if_pos hq]
        · simp only [if_neg hq]
          by_cases hn : b = 10
          · simp only [if_pos hn]
          · simp only [if_neg hn]
            by_cases hb : b = 92
            · simp only [if_pos hb]
              cases he : unquoteEscapeB rest with
              | none => rfl
              | some p =>
                obtain ⟨out, k⟩ := p
                have hlen : (rest.drop k).length ≤ rest.length := by
                  rw [List.length_drop]
                  omega
                dsimp only
                rw [@ih f (rest.drop k) (by omega) (by omega)]
            · simp only [if_neg hb]
              by_cases ha : b < 128
              · simp only [if_pos ha]
                rw [@ih f rest hrg hrf]
              · simp only [if_neg ha]
                cases hd : utf8DecodeOne (b :: rest) with
                | mk r size =>
                  have hlen : (rest.drop (size - 1)).length ≤ rest.length := by
                    rw [List.length_drop]
                    omega
                  dsimp only
                  rw [@ih f (rest.drop (size - 1)) (by omega) (by omega)]

theorem unquoteBytes_cons_clean {b : Nat} (rest : List Nat)
    (h1 : b ≠ 34) (h2 : b ≠ 10) (h3 : b ≠ 92) (h4 : b < 128) :
    unquoteBytes (b :: rest) = (unquoteBytes rest).map (b :: ·) := by
  simp only [unquoteBytes, List.length_cons, unquoteBytesAux, if_neg h1, if_neg h2,
    if_neg h3, if_pos h4]

theorem unquoteBytes_esc (rest : List Nat) :
    unquoteBytes (92 :: rest) =
      match unquoteEscapeB rest with
      | none => none
      | some (out, k) => (unquoteBytes (rest.drop k)).map (out ++ ·) := by
  cases he : unquoteEscapeB rest with
  | none =>
    simp only [unquoteBytes, List.length_cons, unquoteBytesAux, reduceIte, he]
    rw [if_neg (by decide), if_neg (by decide)]
  | some p =>
    obtain ⟨out, k⟩ := p
    have hlen : (rest.drop k).length ≤ rest.length := by
      rw [List.length_drop]
      omega
    simp only [unquoteBytes, List.length_cons, unquoteBytesAux, reduceIte, he]
    rw [if_neg (by decide), if_neg (by decide)]
    rw [unquoteBytesAux_congr rest.length (by omega) (Nat.le_refl _)]

theorem unquoteBytes_append_clean {l1 : List Nat}
    (h : ∀ b ∈ l1, b < 128 ∧ b ≠ 92 ∧ b ≠ 34 ∧ b ≠ 10) (l2 : List Nat) :
    unquoteBytes (l1 ++ l2) = (unquoteBytes l2).map (l1 ++ ·) := by
  induction l1 with
  | nil =>
    cases h2 : unquoteBytes l2 with
    | none => simp [h2]
    | some t => simp [h2]
  | cons a t ih =>
    obtain ⟨ha, hb, hq, hn⟩ := h a (by simp)
    have h' : ∀ b ∈ t, b < 128 ∧ b ≠ 92 ∧ b ≠ 34 ∧ b ≠ 10 := fun b hbm => h b (by simp [hbm])
    rw [List.cons_append, unquoteBytes_cons_clean _ hq hn hb ha, ih h']
    cases h2 : unquoteBytes l2 with
    | none => simp
    | some t2 => simp

theorem unquoteEscapeB_q_none : ∀ (r : List Nat), unquoteEscapeB (113 :: r) = none := by
  intro r
  match r with
  | [] => rfl
  | [x] => rfl
  | x :: y :: t => rfl

/-- C8 (confirmed): at byte level (Go strings are byte sequences), the escape
decoder converts recognized two-character escapes (here the newline escape)
to their literal character anywhere after an escape-free ASCII prefix, and on
a dangling backslash or an unknown escape letter it returns the whole input
unchanged; it is total by construction. -/
theorem C8_escape_decoder :
    (∀ l1 l2 t2 : List Nat, (∀ b ∈ l1, b < 128 ∧ b ≠ 92 ∧ b ≠ 34 ∧ b ≠ 10) →
      unquoteBytes l2 = some t2 →
      decodeEscapesBytes (l1 ++ 92 :: 110 :: l2) = l1 ++ 10 :: t2) ∧
    (∀ l1 : List Nat, (∀ b ∈ l1, b < 128 ∧ b ≠ 92 ∧ b ≠ 34 ∧ b ≠ 10) →
      decodeEscapesBytes (l1 ++ [92]) = l1 ++ [92]) ∧
    (∀ l1 r : List Nat, (∀ b ∈ l1, b < 128 ∧ b ≠ 92 ∧ b ≠ 34 ∧ b ≠ 10) →
      decodeEscapesBytes (l1 ++ 92 :: 113 :: r) = l1 ++ 92 :: 113 :: r) := by
  refine ⟨?_, ?_, ?_⟩
  · intro l1 l2 t2 hclean hl2
    unfold decodeEscapesBytes
    rw [unquoteBytes_append_clean hclean, unquoteBytes_esc (110 :: l2)]
    rw [show unquoteEscapeB (110 :: l2) = some ([10], 1) from rfl]
    dsimp only
    rw [show (110 :: l2).drop 1 = l2 from rfl, hl2]
    rfl
  · intro l1 hclean
    unfold decodeEscapesBytes
    rw [unquoteBytes_append_clean hclean, unquoteBytes_esc []]
    rfl
  · intro l1 r hclean
    unfold decodeEscapesBytes
    rw [unquoteBytes_append_clean hclean, unquoteBytes_esc (113 :: r),
      unquoteEscapeB_q_none r]
    rfl

/-- C8 (witness): the newline escape in `Hello\nworld`, a dangling backslash,
and the unknown escape `\q`, on concrete byte strings. -/
theorem C8_witness :
    decodeEscapesBytes (asciiBytes "Hello" ++ 92 :: 110 :: asciiBytes "world") =
      asciiBytes "Hello" ++ 10 :: asciiBytes "world" ∧
    decodeEscapesBytes (asciiBytes "abc" ++ [92]) = asciiBytes "abc" ++ [92] ∧
    decodeEscapesBytes (asciiBytes "abc" ++ 92 :: 113 :: asciiBytes "d") =
      asciiBytes "abc" ++ 92 :: 113 :: asciiBytes "d" :=
  ⟨C8_escape_decoder.1 (asciiBytes "Hello") (asciiBytes "world") (asciiBytes "world")
      (by decide) (by decide),
   C8_escape_decoder.2.1 (asciiBytes "abc") (by decide),
   C8_escape_decoder.2.2 (asciiBytes "abc") (asciiBytes "d") (by decide)⟩

/-- One diagnostic line emitted by `Client.logHTTP` (request payloads are
logged as the marshalled JSON value, response payloads as the received body). -/
inductive LogLine where
  | requestURL (url : String) : LogLine
  | requestPayload (payload : Json) : LogLine
  | responseURL (url : String) : LogLine
  | responseStatus (status : Nat) : LogLine
  | responsePayload (body : String) : LogLine
  | responsePayloadJ (body : Json) : LogLine

/-- `Client.logHTTP` in the request direction: URL then pretty-printed
payload, or nothing when verbose logging is off or no sink is configured. -/
def logRequest (verbose hasWriter : Bool) (url : String) (payload : Json) : List LogLine :=
  if !verbose || !hasWriter then []
  else [.requestURL url, .requestPayload payload]

/-- `Client.logHTTP` in the response direction: URL, numeric status, then
pretty-printed body, or nothing when verbose logging is off or no sink is
configured. -/
def logResponse (verbose hasWriter : Bool) (url : String) (status : Nat)
    (body : LogLine) : List LogLine :=
  if !verbose || !hasWriter then []
  else [.responseURL url, .responseStatus status, body]

/-- `Client.postMessage` as received-response function together with the
verbose log stream it emits. -/
def postMessageRun (verbose hasWriter : Bool) (url : String) (payload : Json)
    (respStatus : Nat) (respBody : String) : PostResult × List LogLine :=
  (postMessage respStatus respBody,
   logRequest verbose hasWriter url payload ++
     logResponse verbose hasWriter url respStatus (.responsePayload respBody))

/-- `Client.SendCharacters` together with its verbose log stream. -/
def sendCharactersRun (verbose hasWriter : Bool) (characters : List (List Int))
    (respStatus : Nat) (respBody : String) : PostResult × List LogLine :=
  postMessageRun verbose hasWriter "https://cloud.vestaboard.com/"
    (sendCharactersRequest characters) respStatus respBody

/-- `Client.SendText` together with its verbose log stream. -/
def sendTextRun (verbose hasWriter : Bool) (text : String)
    (respStatus : Nat) (respBody : String) : PostResult × List LogLine :=
  postMessageRun verbose hasWriter "https://cloud.vestaboard.com/"
    (sendTextRequest text) respStatus respBody

/-- JSON marshalling of the compose request built by `Client.FormatMessage`. -/
def renderRequestJson (r : RenderRequest) : Json :=
  .obj (("components", .arr (r.components.map fun comp =>
      Json.obj [("template", .str comp.template),
        ("style", .obj [("align", .str comp.style.align),
          ("justify", .str comp.style.justify)])])) ::
    match r.style with
    | some st =>
      [("style", Json.obj [("height", .num (st.height : Int)),
        ("width", .num (st.width : Int))])]
    | none => [])

/-- The result of `Client.FormatMessage` as a function of the received
response: non-2xx statuses are protocol errors, 2xx bodies are decoded by
`decodeComposeBody`. -/
def formatMessageResult (respStatus : Nat) (respBody : Json) :
    Except String (List (List Int)) :=
  if respStatus < 200 ∨ 300 ≤ respStatus then
    .error ("vbml API returned " ++ Nat.repr respStatus)
  else decodeComposeBody respBody

/-- `Client.FormatMessage` together with its verbose log stream. -/
def formatMessageRun (verbose hasWriter : Bool) (text model align justify : String)
    (respStatus : Nat) (respBody : Json) :
    Except String (List (List Int)) × List LogLine :=
  (formatMessageResult respStatus respBody,
   logRequest verbose hasWriter "https://vbml.vestaboard.com/compose"
       (renderRequestJson (formatMessageRequest text model align justify)) ++
     logResponse verbose hasWriter "https://vbml.vestaboard.com/compose" respStatus
       (.responsePayloadJ respBody))

/-- C9 (confirmed): two-run noninterference over the verbose-logging
configuration: for every payload and received response, `SendCharacters`,
`SendText` and `FormatMessage` return the same value whether verbose logging
is enabled or disabled (and whether or not a log sink is configured); the log
stream is a pure side channel. -/
theorem C9_verbose_noninterference :
    (∀ v1 w1 v2 w2 chars status body,
      (sendCharactersRun v1 w1 chars status body).1 =
        (sendCharactersRun v2 w2 chars status body).1) ∧
    (∀ v1 w1 v2 w2 text status body,
      (sendTextRun v1 w1 text status body).1 = (sendTextRun v2 w2 text status body).1) ∧
    (∀ v1 w1 v2 w2 text model align justify status body,
      (formatMessageRun v1 w1 text model align justify status body).1 =
        (formatMessageRun v2 w2 text model align justify status body).1) :=
  ⟨fun _ _ _ _ _ _ _ => rfl, fun _ _ _ _ _ _ _ => rfl,
   fun _ _ _ _ _ _ _ _ _ _ => rfl⟩

end VBCli
